import Mathlib

/-
Verification of the ballot-validity gate library and the exponential-ElGamal
gate of the ballotsnarks repository `src/gates` (`ballots.py`, `listgates.py`,
`expelgamalgates.py`).

Wires carry values of the circuit's finite group, modelled as `ZMod q` for an
arbitrary modulus `q`; the embedding of an integer `n` into the group
(`group.gen(n)`) is the canonical cast.  Assertion gates raise `ValueError`
on the first violated constraint; we model a gate invocation by the `Bool`
stating that every constraint it asserts holds (`true` = the call returns
normally).  `assert_line_vote_ballot` indexes `ballot[0]` before asserting
anything, so it alone is modelled in an error monad that separates a Python
`IndexError` from a constraint violation.

The collaborator gates (`assertgates`, `comparison`, `bits`, the group type
and the Montgomery-curve arithmetic) are not part of the repository sources
available here; each is modelled from the specification's contract table
(spec section 6) and carries a doc comment saying so.
-/

/-- Outcome of a gate that can fail: a Python `IndexError` raised by a list
access, or a `ValueError` raised by a violated constraint. -/
inductive GateError where
  | indexError
  | constraintViolation
deriving DecidableEq

variable {q : ℕ}

/-- Modelled from the spec: `assert_bit(w)` constrains `w` to 0 or 1.
`isBit w` is the truth value of that constraint on a concrete wire value. -/
def isBit (x : ZMod q) : Bool := decide (x = 0 ∨ x = 1)

/-- Modelled from the spec: `assert_bit(w)` as a fallible gate call
(`ValueError` on violation), used where index errors must also be tracked. -/
def assert_bit (x : ZMod q) : Except GateError Unit :=
  if isBit x then Except.ok () else Except.error GateError.constraintViolation

/-- Modelled from the spec: `assert_equal(group, seqA, seqB)` constrains
elementwise equality of two equal-length sequences.  A length mismatch can
never satisfy elementwise equality of equal-length sequences, so it is a
failed constraint; the gate therefore succeeds exactly when the two
sequences are equal as lists. -/
def assert_equal (a b : List (ZMod q)) : Bool := decide (a = b)

/-- Modelled from the spec: `assert_gt(group, bound, value, bits)` constrains
`bound > value`, valid only when the operands fit in `bits` bits.  The model
compares the canonical representatives; the `bits` argument records the
range precondition, which theorems carry as a hypothesis. -/
def assert_gt (bound value : ZMod q) (bits : ℕ) : Bool :=
  decide (value.val < bound.val)

/-- Modelled from the spec: `comparison.gt(group, a, b, bits)` returns a
binary wire, 1 iff `a > b`, valid only when both operands fit in `bits`
bits. -/
def gtW (a b : ZMod q) (bits : ℕ) : ZMod q := if b.val < a.val then 1 else 0

/-- Modelled from the spec: `comparison.eq(group, a, b)` returns a binary
wire, 1 iff `a == b`. -/
def eqW (a b : ZMod q) : ZMod q := if a = b then 1 else 0

/-- Modelled from the spec: `bitgates.and_gate(group, bits)` returns a binary
wire equal to the logical AND of a sequence of binary wires, realizable as
their product. -/
def and_gate (l : List (ZMod q)) : ZMod q := l.prod

/-- Python list indexing `l[i]`: the element, or an `IndexError` when `i` is
out of range. -/
def pyIndex {α : Type} (l : List α) (i : ℕ) : Except GateError α :=
  match l.get? i with
  | some x => Except.ok x
  | none => Except.error GateError.indexError

/-- `listgates.get_n_occurences(group, wires, wire)`: sum of per-element
equality indicators, starting from `gen(0)`. -/
def get_n_occurences (wires : List (ZMod q)) (wire : ZMod q) : ZMod q :=
  wires.foldl (fun acc x => acc + eqW x wire) 0

/-- `ballots.assert_single_vote(group, ballot)`: asserts each entry binary,
then calls `assert_equal(group, ballot, [group.gen(1)])`. -/
def assert_single_vote (ballot : List (ZMod q)) : Bool :=
  ballot.all isBit && assert_equal ballot [1]

/-- `ballots.assert_multi_vote(group, ballot, max_choices, bits,
max_votes_per_candidate, totalbits)`: defaults `max_votes_per_candidate` to
`gen(1)` and `totalbits` to `len(ballot)`; asserts
`assert_gt(max_votes_per_candidate, entry, bits)` for every entry and, when
`max_choices` is given, `assert_gt(max_choices, sum(ballot), totalbits)`. -/
def assert_multi_vote (ballot : List (ZMod q)) (max_choices : Option (ZMod q))
    (bits : ℕ) (max_votes_per_candidate : Option (ZMod q))
    (totalbits : Option ℕ) : Bool :=
  let mvpc := max_votes_per_candidate.getD 1
  let tb := totalbits.getD ballot.length
  (ballot.all fun wire => assert_gt mvpc wire bits) &&
    (match max_choices with
     | none => true
     | some mc => assert_gt mc ballot.sum tb)

/-- The loop body of `assert_line_vote_ballot`: for each remaining entry
`b` after the previous entry `prev`, assert `b` binary and accumulate
`(b - prev) * b` onto the indicator; after the loop, assert the indicator
binary. -/
def lineVoteAux (prev up : ZMod q) : List (ZMod q) → Except GateError Unit
  | [] => assert_bit up
  | b :: rest =>
    match assert_bit b with
    | Except.ok _ => lineVoteAux b (up + (b - prev) * b) rest
    | Except.error e => Except.error e

/-- `ballots.assert_line_vote_ballot(group, ballot)`: reads `ballot[0]`
(raising `IndexError` on an empty ballot), asserts it binary, initializes
the indicator to `ballot[0]`, then runs the adjacent-pair loop. -/
def assert_line_vote_ballot (ballot : List (ZMod q)) : Except GateError Unit :=
  match pyIndex ballot 0 with
  | Except.error e => Except.error e
  | Except.ok b0 =>
    match assert_bit b0 with
    | Except.error e => Except.error e
    | Except.ok _ => lineVoteAux b0 b0 ballot.tail

/-- `ballots.assert_pointlist_borda_ballot(group, ballot, ordered_points)`:
asserts that the number of occurrences of `gen(0)` in the ballot equals
`gen(len(ballot) - len(ordered_points))` (Python integer subtraction, hence
the cast through `ℤ`), and that each point value occurs exactly once. -/
def assert_pointlist_borda_ballot (ballot ordered_points : List (ZMod q)) :
    Bool :=
  let expected_zeros : ZMod q :=
    ((ballot.length : ℤ) - (ordered_points.length : ℤ) : ℤ)
  assert_equal [expected_zeros] [get_n_occurences ballot 0] &&
    ordered_points.all fun point =>
      assert_equal [get_n_occurences ballot point] [1]

/-- `ballots.compute_borda_tournament_style_ballot(group, ranking, bits)`:
for each position `i`, twice the number of opponents `j ≠ i` with
`gt(ranking[i] - 1, ranking[j], bits)` plus the number of opponents with
`eq(ranking[i], ranking[j])`. -/
def compute_borda_tournament_style_ballot (ranking : List (ZMod q))
    (bits : ℕ) : List (ZMod q) :=
  (List.range ranking.length).map fun i =>
    let rv := ranking.getD i 0
    let n_truely_greater :=
      (((List.range ranking.length).filter fun j => j != i).map fun j =>
        gtW (rv - 1) (ranking.getD j 0) bits).sum
    let n_eq :=
      (((List.range ranking.length).filter fun j => j != i).map fun j =>
        eqW rv (ranking.getD j 0)).sum
    2 * n_truely_greater + n_eq

/-- Matrix entry `ballot[i][j]` of a Condorcet ballot (total model of the
Python indexing; all theorems quantify over square matrices, where every
access is in range). -/
def mget (m : List (List (ZMod q))) (i j : ℕ) : ZMod q :=
  (m.getD i []).getD j 0

/-- The body of the triple loop of `assert_condorcet_ballot` for distinct
`i, j, k`: assert `ballot[i][j] + ballot[j][i]` binary, and assert that
`and_gate([1 - ballot[j][i], 1 - ballot[k][j], 1 - (1 - ballot[k][i])])`
equals `gen(0)`. -/
def condorcetTripleCheck (m : List (List (ZMod q))) (i j k : ℕ) : Bool :=
  isBit (mget m i j + mget m j i) &&
    assert_equal [and_gate [1 - mget m j i, 1 - mget m k j,
      1 - (1 - mget m k i)]] [0]

/-- `ballots.assert_condorcet_ballot(group, ballot)`: every off-diagonal
entry is asserted binary; then for every ordered triple of pairwise distinct
indices the pair-and-transitivity checks of `condorcetTripleCheck` run. -/
def assert_condorcet_ballot (m : List (List (ZMod q))) : Bool :=
  ((List.range m.length).all fun i =>
    (List.range (m.getD i []).length).all fun j =>
      i == j || isBit (mget m i j)) &&
  ((List.range m.length).all fun i =>
    (List.range m.length).all fun j =>
      (List.range m.length).all fun k =>
        i == j || i == k || j == k || condorcetTripleCheck m i j k)

/-- Number of starts of maximal runs of ones strictly inside a 0/1 list,
given the value `prev` preceding it: a start is a position holding 1 whose
predecessor holds 0. -/
def runStarts (prev : ZMod q) : List (ZMod q) → ℕ
  | [] => 0
  | b :: rest => (if prev = 0 ∧ b = 1 then 1 else 0) + runStarts b rest

variable {M : Type} [AddCommMonoid M]

/-- Modelled from the spec: double-and-add scalar multiplication of a curve
point by a natural number.  The Montgomery-curve collaborator is modelled
over an arbitrary additively written commutative monoid of points, which the
core treats as opaque. -/
def expNat (p : M) (n : ℕ) : M :=
  if h : n = 0 then 0
  else
    if n % 2 = 1 then p + expNat (p + p) (n / 2) else expNat (p + p) (n / 2)
termination_by n
decreasing_by
  all_goals exact Nat.div_lt_self (Nat.pos_of_ne_zero h) Nat.one_lt_two

/-- Modelled from the spec: `montgomery.exponent_homogeneous_point(group, A,
B, point, scalar)` — scalar multiplication of a point by a scalar wire. -/
def exponent_homogeneous_point (A B : ZMod q) (p : M) (s : ZMod q) : M :=
  expNat p s.val

/-- Modelled from the spec:
`montgomery.exponent_homogeneous_point_bit_exponent(group, A, B, point,
bits)` — scalar multiplication of a point by an MSB-first sequence of binary
wires, Horner-style double-and-add. -/
def exponent_homogeneous_point_bit_exponent (A B : ZMod q) (p : M)
    (bits : List (ZMod q)) : M :=
  bits.foldl (fun acc b => acc + acc + expNat p b.val) 0

/-- Modelled from the spec: `montgomery.add_homogeneous_points(group, A, B,
p1, p2)` — curve-point addition. -/
def add_homogeneous_points (A B : ZMod q) (p1 p2 : M) : M := p1 + p2

/-- The MSB-first binary representation of `n` in `len` bits. -/
def natBitsMSB : ℕ → ℕ → List ℕ
  | 0, _ => []
  | len + 1, n => (n / 2 ^ len) :: natBitsMSB len (n % 2 ^ len)

/-- Modelled from the spec: `bitgates.split(group, x, bit_length)` — the
ordered MSB-first sequence of binary wires representing `x`, using
`bit_length` bits when given and the group's native bit capacity `nbits`
otherwise; undefined (here: truncated) when `x` does not fit. -/
def split (nbits : ℕ) (x : ZMod q) (bit_length : Option ℕ) :
    List (ZMod q) :=
  (natBitsMSB (bit_length.getD nbits) x.val).map fun b => ((b : ℕ) : ZMod q)

/-- `expelgamalgates.exponential_elgamal_over_montgomery_curve_bit_randomness
(group, A, B, g, pk, x, r_bits, n_max_bits_x)`: splits `x` into bits, forms
`g^x`, `pk^r` and `g^r` by bit-exponentiation, and returns
`(g^r, g^x + pk^r)`.  `nbits` is the group's native bit capacity, the
default width of the split. -/
def exponential_elgamal_over_montgomery_curve_bit_randomness (nbits : ℕ)
    (A B : ZMod q) (g pk : M) (x : ZMod q) (r_bits : List (ZMod q))
    (n_max_bits_x : Option ℕ) : M × M :=
  let x_bits := split nbits x n_max_bits_x
  let gx := exponent_homogeneous_point_bit_exponent A B g x_bits
  let pkr := exponent_homogeneous_point_bit_exponent A B pk r_bits
  let gr := exponent_homogeneous_point_bit_exponent A B g r_bits
  (gr, add_homogeneous_points A B gx pkr)

/-- `expelgamalgates.exponential_elgamal_over_montgomery_curve(group, A, B,
g, pk, x, r)`: three scalar exponentiations `g^x`, `pk^r`, `g^r` and one
point addition; returns `(g^r, g^x + pk^r)`.  No constraint is asserted. -/
def exponential_elgamal_over_montgomery_curve (A B : ZMod q) (g pk : M)
    (x r : ZMod q) : M × M :=
  let gx := exponent_homogeneous_point A B g x
  let pkr := exponent_homogeneous_point A B pk r
  let gr := exponent_homogeneous_point A B g r
  (gr, add_homogeneous_points A B gx pkr)


lemma isBit_iff {x : ZMod q} : isBit x = true ↔ x = 0 ∨ x = 1 := by
  simp [isBit]

lemma assert_bit_ok_iff {x : ZMod q} :
    assert_bit x = Except.ok () ↔ (x = 0 ∨ x = 1) := by
  by_cases h : x = 0 ∨ x = 1
  · simp [assert_bit, isBit, h]
  · simp [assert_bit, isBit, h]

lemma runStarts_cons (prev b : ZMod q) (rest : List (ZMod q)) :
    runStarts prev (b :: rest) =
      (if prev = 0 ∧ b = 1 then 1 else 0) + runStarts b rest := rfl

lemma runStarts_le (prev : ZMod q) (l : List (ZMod q)) :
    runStarts prev l ≤ l.length := by
  induction l generalizing prev with
  | nil => simp [runStarts]
  | cons b rest ih =>
    rw [runStarts_cons, List.length_cons]
    have := ih b
    split <;> omega

lemma step_term {prev b : ZMod q} (h01 : (0 : ZMod q) ≠ 1)
    (hp : prev = 0 ∨ prev = 1) (hb : b = 0 ∨ b = 1) :
    (b - prev) * b = ((if prev = 0 ∧ b = 1 then 1 else 0 : ℕ) : ZMod q) := by
  rcases hp with rfl | rfl <;> rcases hb with rfl | rfl <;>
    simp [h01, Ne.symm h01]

lemma lineVoteAux_eq (l : List (ZMod q)) :
    ∀ prev up : ZMod q, (0 : ZMod q) ≠ 1 → (∀ x ∈ l, x = 0 ∨ x = 1) →
    (prev = 0 ∨ prev = 1) →
    lineVoteAux prev up l =
      assert_bit (up + ((runStarts prev l : ℕ) : ZMod q)) := by
  induction l with
  | nil => intro prev up _ _ _; simp [lineVoteAux, runStarts]
  | cons b rest ih =>
    intro prev up h01 hbin hprev
    have hb : b = 0 ∨ b = 1 := hbin b (List.mem_cons_self b rest)
    have hrest : ∀ x ∈ rest, x = 0 ∨ x = 1 :=
      fun x hx => hbin x (List.mem_cons_of_mem b hx)
    have hok : assert_bit b = Except.ok () := assert_bit_ok_iff.mpr hb
    simp only [lineVoteAux, hok]
    rw [ih b (up + (b - prev) * b) h01 hrest hb]
    congr 1
    rw [step_term h01 hprev hb, runStarts_cons]
    push_cast
    ring

lemma natCast_bit_iff (hq2 : 1 < q) {m : ℕ} (hm : m < q) :
    ((m : ZMod q) = 0 ∨ (m : ZMod q) = 1) ↔ m ≤ 1 := by
  haveI : NeZero q := ⟨by omega⟩
  haveI : Fact (1 < q) := ⟨hq2⟩
  have hv : ((m : ZMod q)).val = m := ZMod.val_cast_of_lt hm
  constructor
  · rintro (h | h)
    · rw [h, ZMod.val_zero] at hv; omega
    · rw [h, ZMod.val_one] at hv; omega
  · intro h
    interval_cases m
    · left; exact Nat.cast_zero
    · right; exact Nat.cast_one

lemma runStarts_replicate_zero (h01 : (0 : ZMod q) ≠ 1) (prev : ZMod q)
    (n : ℕ) : runStarts prev (List.replicate n (0 : ZMod q)) = 0 := by
  induction n generalizing prev with
  | zero => rfl
  | succ n ih =>
    rw [List.replicate_succ, runStarts_cons, if_neg (fun h => h01 h.2)]
    simpa using ih 0

lemma runStarts_one_ones_zeros (h01 : (0 : ZMod q) ≠ 1) (b c : ℕ) :
    runStarts (1 : ZMod q)
      (List.replicate b (1 : ZMod q) ++ List.replicate c 0) = 0 := by
  induction b with
  | zero => simpa using runStarts_replicate_zero h01 1 c
  | succ b ih =>
    rw [List.replicate_succ, List.cons_append, runStarts_cons,
      if_neg (fun h => h01 h.1.symm)]
    simpa using ih

lemma runStarts_decomp_le_one (h01 : (0 : ZMod q) ≠ 1) (a b c : ℕ) :
    runStarts (0 : ZMod q)
      (List.replicate a (0 : ZMod q) ++ List.replicate b 1 ++
        List.replicate c 0) ≤ 1 := by
  induction a with
  | zero =>
    cases b with
    | zero =>
      have h := runStarts_replicate_zero h01 (0 : ZMod q) c
      simp only [List.replicate_zero, List.nil_append]
      omega
    | succ b =>
      have h := runStarts_one_ones_zeros h01 b c
      simp only [List.replicate_zero, List.nil_append]
      rw [List.replicate_succ, List.cons_append, runStarts_cons]
      split <;> omega
  | succ a ih =>
    rw [List.replicate_succ, List.cons_append, List.cons_append,
      runStarts_cons, if_neg (fun h => h01 h.2)]
    omega

lemma runStarts_zero_all_zero (h01 : (0 : ZMod q) ≠ 1) (l : List (ZMod q))
    (hbin : ∀ x ∈ l, x = 0 ∨ x = 1) (h : runStarts 0 l = 0) :
    l = List.replicate l.length (0 : ZMod q) := by
  induction l with
  | nil => rfl
  | cons b rest ih =>
    have hrest : ∀ x ∈ rest, x = 0 ∨ x = 1 :=
      fun x hx => hbin x (List.mem_cons_of_mem _ hx)
    rcases hbin b (List.mem_cons_self b rest) with rfl | rfl
    · rw [runStarts_cons, if_neg (fun hh => h01 hh.2)] at h
      have := ih hrest (by omega)
      rw [List.length_cons, List.replicate_succ]
      exact congrArg (List.cons 0) this
    · rw [runStarts_cons] at h
      split at h
      · omega
      · next hc => exact absurd ⟨rfl, rfl⟩ hc

lemma runStarts_one_zero_decomp (h01 : (0 : ZMod q) ≠ 1) (l : List (ZMod q))
    (hbin : ∀ x ∈ l, x = 0 ∨ x = 1) (h : runStarts 1 l = 0) :
    ∃ b c, l = List.replicate b (1 : ZMod q) ++ List.replicate c 0 := by
  induction l with
  | nil => exact ⟨0, 0, rfl⟩
  | cons x rest ih =>
    rw [runStarts_cons, if_neg (fun hh => h01 hh.1.symm)] at h
    have hrest : ∀ y ∈ rest, y = 0 ∨ y = 1 :=
      fun y hy => hbin y (List.mem_cons_of_mem _ hy)
    rcases hbin x (List.mem_cons_self x rest) with rfl | rfl
    · have hall := runStarts_zero_all_zero h01 rest hrest (by omega)
      refine ⟨0, rest.length + 1, ?_⟩
      rw [List.replicate_zero, List.nil_append, List.replicate_succ]
      exact congrArg (List.cons 0) hall
    · obtain ⟨b, c, rfl⟩ := ih hrest (by omega)
      exact ⟨b + 1, c, by rw [List.replicate_succ, List.cons_append]⟩

lemma runStarts_le_one_decomp (h01 : (0 : ZMod q) ≠ 1) (l : List (ZMod q))
    (hbin : ∀ x ∈ l, x = 0 ∨ x = 1) (h : runStarts 0 l ≤ 1) :
    ∃ a b c, l = List.replicate a (0 : ZMod q) ++ List.replicate b 1 ++
      List.replicate c 0 := by
  induction l with
  | nil => exact ⟨0, 0, 0, rfl⟩
  | cons x rest ih =>
    have hrest : ∀ y ∈ rest, y = 0 ∨ y = 1 :=
      fun y hy => hbin y (List.mem_cons_of_mem _ hy)
    rcases hbin x (List.mem_cons_self x rest) with rfl | rfl
    · rw [runStarts_cons, if_neg (fun hh => h01 hh.2)] at h
      obtain ⟨a, b, c, rfl⟩ := ih hrest (by omega)
      refine ⟨a + 1, b, c, ?_⟩
      rw [List.replicate_succ, List.cons_append, List.cons_append]
    · rw [runStarts_cons] at h
      have h1 : runStarts (1 : ZMod q) rest = 0 := by
        split at h
        · omega
        · next hc => exact absurd ⟨rfl, rfl⟩ hc
      obtain ⟨b, c, rfl⟩ := runStarts_one_zero_decomp h01 rest hrest h1
      refine ⟨0, b + 1, c, ?_⟩
      rw [List.replicate_zero, List.nil_append, List.replicate_succ,
        List.cons_append]

/-- Claim C4: for a non-empty ballot, over a group of order larger than the
ballot length, whose entries are all binary, `assert_line_vote_ballot`
succeeds iff the ones form one contiguous run located anywhere in the ballot
(the all-zero ballot has an empty run and is valid). -/
theorem line_vote_ballot_iff_contiguous (ballot : List (ZMod q))
    (hne : ballot ≠ []) (hlen : ballot.length < q)
    (hbin : ∀ x ∈ ballot, x = 0 ∨ x = 1) :
    assert_line_vote_ballot ballot = Except.ok () ↔
      ∃ a b c : ℕ, ballot = List.replicate a (0 : ZMod q) ++
        List.replicate b 1 ++ List.replicate c 0 := by
  obtain ⟨b0, tail, rfl⟩ := List.exists_cons_of_ne_nil hne
  have hq2 : 1 < q := by simp only [List.length_cons] at hlen; omega
  haveI : NeZero q := ⟨by omega⟩
  have h01 : (0 : ZMod q) ≠ 1 := by
    haveI : Fact (1 < q) := ⟨hq2⟩
    exact zero_ne_one
  have hb0 : b0 = 0 ∨ b0 = 1 := hbin b0 (List.mem_cons_self b0 tail)
  have htail : ∀ x ∈ tail, x = 0 ∨ x = 1 :=
    fun x hx => hbin x (List.mem_cons_of_mem _ hx)
  have hok : assert_bit b0 = Except.ok () := assert_bit_ok_iff.mpr hb0
  have hpy : pyIndex (b0 :: tail) 0 = Except.ok b0 := rfl
  have hred : assert_line_vote_ballot (b0 :: tail) =
      assert_bit (((runStarts 0 (b0 :: tail) : ℕ) : ZMod q)) := by
    simp only [assert_line_vote_ballot, hpy, hok, List.tail_cons]
    rw [lineVoteAux_eq tail b0 b0 h01 htail hb0]
    congr 1
    rw [runStarts_cons]
    rcases hb0 with rfl | rfl
    · rw [if_neg (fun hh => h01 hh.2)]
      push_cast
      ring
    · rw [if_pos ⟨rfl, rfl⟩]
      push_cast
      ring
  rw [hred, assert_bit_ok_iff]
  have hlt : runStarts (0 : ZMod q) (b0 :: tail) < q := by
    have h1 := runStarts_le (0 : ZMod q) (b0 :: tail)
    omega
  rw [natCast_bit_iff hq2 hlt]
  constructor
  · intro h
    exact runStarts_le_one_decomp h01 _ hbin h
  · rintro ⟨a, b, c, hdecomp⟩
    rw [hdecomp]
    exact runStarts_decomp_le_one h01 a b c

/-- Claim C4 witness: `[1, 1, 1, 0, 0]` over `ZMod 7` is binary, non-empty,
shorter than the modulus, decomposes as one run of ones, and is accepted. -/
theorem line_vote_ballot_iff_contiguous_witness :
    assert_line_vote_ballot ([1, 1, 1, 0, 0] : List (ZMod 7)) =
      Except.ok () :=
  (line_vote_ballot_iff_contiguous ([1, 1, 1, 0, 0] : List (ZMod 7))
    (by decide) (by decide) (by decide)).mpr ⟨0, 3, 2, by decide⟩

/-- Claim C10: on the empty ballot, `assert_line_vote_ballot` fails with an
index error at its first access `ballot[0]`, before any constraint is
asserted — it neither accepts the ballot nor reports a constraint
violation. -/
theorem line_vote_empty_ballot_index_error (q : ℕ) :
    assert_line_vote_ballot ([] : List (ZMod q)) =
      Except.error GateError.indexError := rfl

/-- Claim C1 (code-bug evidence): the ballot `[0, 1]` has all entries binary
and exactly one entry equal to 1, so its sum is `gen(1)`; yet
`assert_single_vote` rejects it, because the code compares the whole ballot
sequence with the one-element sequence `[gen(1)]` instead of comparing the
sum of the entries with `gen(1)`, contradicting its own documentation
(`exactly one one occurs`). -/
theorem assert_single_vote_rejects_exactly_one_one :
    (([0, 1] : List (ZMod 5)).all isBit = true) ∧
      ([0, 1] : List (ZMod 5)).count 1 = 1 ∧
      ([0, 1] : List (ZMod 5)).sum = 1 ∧
      assert_single_vote ([0, 1] : List (ZMod 5)) = false := by decide

/-- Claim C2 counterexample: with default parameters (`bits = 1`, no
`max_choices`, `max_votes_per_candidate = gen(1)`), `assert_multi_vote`
rejects the ballot `[1, 0, 1, 0]`, contrary to the claim that it succeeds:
the per-entry constraint is the strict bound `gen(1) > entry`, which the
entries equal to 1 violate. -/
theorem assert_multi_vote_default_rejects :
    assert_multi_vote ([1, 0, 1, 0] : List (ZMod 97)) none 1 none none =
      false := by decide

/-- Claim C2 (amended): with default parameters `assert_multi_vote` reduces
to the entrywise strict checks `gen(1) > entry` with no total cap (so the
all-zero ballot passes), and on ballot `[1, 0, 1, 0]` with `bits = 1` it
fails because `1 > 1` does not hold; with `max_choices = gen(2)` and
`totalbits = 4` it fails as well, the sum 2 not being strictly below 2. -/
theorem assert_multi_vote_strict_bounds :
    assert_multi_vote ([0, 0, 0, 0] : List (ZMod 97)) none 1 none none =
        true ∧
      assert_multi_vote ([1, 0, 1, 0] : List (ZMod 97)) none 1 none none =
        false ∧
      assert_multi_vote ([1, 0, 1, 0] : List (ZMod 97)) (some 2) 1 none
        (some 4) = false := by decide

lemma third_index (i j n : ℕ) (hn : 3 ≤ n) :
    ∃ k, k < n ∧ k ≠ i ∧ k ≠ j := by
  by_cases h0i : i = 0
  · by_cases h1j : j = 1
    · exact ⟨2, by omega, by omega, by omega⟩
    · exact ⟨1, by omega, by omega, by omega⟩
  · by_cases h0j : j = 0
    · by_cases h1i : i = 1
      · exact ⟨2, by omega, by omega, by omega⟩
      · exact ⟨1, by omega, by omega, by omega⟩
    · exact ⟨0, by omega, by omega, by omega⟩

/-- Claim C6 (amended): whenever the matrix has at least three rows, a
successful `assert_condorcet_ballot` run has asserted
`matrix[i][j] + matrix[j][i]` binary for every ordered pair `i ≠ j` (the
pair check sits inside the loop over distinct triples, so some third index
is needed). -/
theorem condorcet_pair_constraint_of_three (m : List (List (ZMod q)))
    (hn : 3 ≤ m.length) (hsucc : assert_condorcet_ballot m = true)
    (i j : ℕ) (hi : i < m.length) (hj : j < m.length) (hij : i ≠ j) :
    isBit (mget m i j + mget m j i) = true := by
  obtain ⟨k, hk, hki, hkj⟩ := third_index i j m.length hn
  rw [assert_condorcet_ballot, Bool.and_eq_true] at hsucc
  have h2 := hsucc.2
  simp only [List.all_eq_true, List.mem_range] at h2
  have h3 := h2 i hi j hj k hk
  simp only [Bool.or_eq_true, beq_iff_eq] at h3
  rcases h3 with ((h | h) | h) | h
  · exact absurd h hij
  · exact absurd h.symm hki
  · exact absurd h.symm hkj
  · rw [condorcetTripleCheck, Bool.and_eq_true] at h
    exact h.1

/-- Claim C6 witness: on a 3-candidate strict-order matrix the gate
succeeds, and the theorem then yields the pair constraint for the pair
`(0, 1)`. -/
theorem condorcet_pair_constraint_of_three_witness :
    isBit (mget ([[0, 1, 1], [0, 0, 1], [0, 0, 0]] : List (List (ZMod 7)))
        0 1 +
      mget ([[0, 1, 1], [0, 0, 1], [0, 0, 0]] : List (List (ZMod 7))) 1 0) =
      true :=
  condorcet_pair_constraint_of_three
    ([[0, 1, 1], [0, 0, 1], [0, 0, 0]] : List (List (ZMod 7)))
    (by decide) (by decide) 0 1 (by decide) (by decide) (by decide)

/-- Claim C6 counterexample: on the 2-candidate matrix `[[0, 1], [1, 0]]`
both directions claim "preferred", the pair sum `2` is not binary, yet
`assert_condorcet_ballot` accepts the matrix — contrary to the claim, no
pair constraint is emitted on a 2-candidate matrix, because the pair check
is only reached for triples of pairwise distinct indices. -/
theorem condorcet_two_candidate_no_pair_constraint :
    assert_condorcet_ballot ([[0, 1], [1, 0]] : List (List (ZMod 7))) =
        true ∧
      isBit (mget ([[0, 1], [1, 0]] : List (List (ZMod 7))) 0 1 +
        mget ([[0, 1], [1, 0]] : List (List (ZMod 7))) 1 0) = false := by
  decide

/-- Claim C7: `assert_condorcet_ballot` accepts every binary matrix that
encodes a strict total order (an acyclic tournament given by injective
ranks) on at least three candidates, and rejects the 3-cycle matrix where
candidate 0 beats 1, 1 beats 2, and 2 beats 0. -/
theorem condorcet_total_order_accepts_and_cycle_fails :
    (∀ (q : ℕ) (m : List (List (ZMod q))) (rank : ℕ → ℕ),
      3 ≤ m.length →
      (∀ row ∈ m, row.length = m.length) →
      (∀ i, i < m.length → ∀ j, j < m.length → rank i = rank j → i = j) →
      (∀ i, i < m.length → ∀ j, j < m.length →
        mget m i j = if rank i < rank j then 1 else 0) →
      assert_condorcet_ballot m = true) ∧
    assert_condorcet_ballot
      ([[0, 1, 0], [0, 0, 1], [1, 0, 0]] : List (List (ZMod 7))) = false := by
  constructor
  · intro q m rank hn hrow hinj hm
    rw [assert_condorcet_ballot, Bool.and_eq_true]
    constructor
    · simp only [List.all_eq_true, List.mem_range]
      intro i hi j hj
      have hjm : j < m.length := by
        have hget : m.getD i [] = m[i] := List.getD_eq_getElem m [] hi
        have hmem : m[i] ∈ m := List.getElem_mem hi
        rw [hget, hrow m[i] hmem] at hj
        exact hj
      by_cases hij : i = j
      · simp [hij]
      · simp only [Bool.or_eq_true, beq_iff_eq]
        right
        rw [hm i hi j hjm]
        split
        · simp [isBit]
        · simp [isBit]
    · simp only [List.all_eq_true, List.mem_range]
      intro i hi j hj k hk
      by_cases hij : i = j
      · simp [hij]
      · by_cases hik : i = k
        · simp [hik]
        · by_cases hjk : j = k
          · simp [hjk]
          · simp only [Bool.or_eq_true, beq_iff_eq]
            right
            rw [condorcetTripleCheck, Bool.and_eq_true]
            refine ⟨?_, ?_⟩
            · rw [hm i hi j hj, hm j hj i hi]
              rcases Nat.lt_trichotomy (rank i) (rank j) with h | h | h
              · rw [if_pos h, if_neg (by omega)]
                simp [isBit]
              · exact absurd (hinj i hi j hj h) hij
              · rw [if_neg (by omega), if_pos h]
                simp [isBit]
            · have key : and_gate [1 - mget m j i, 1 - mget m k j,
                  1 - (1 - mget m k i)] = 0 := by
                rw [hm j hj i hi, hm k hk j hj, hm k hk i hi]
                simp only [and_gate, List.prod_cons, List.prod_nil]
                split_ifs with h1 h2 h3 <;>
                  first
                    | (exfalso; omega)
                    | norm_num
              simp only [assert_equal, key, decide_eq_true_eq]
  · decide

/-- Claim C7 witness: the strict-total-order matrix `[[0,1,1],[0,0,1],[0,0,0]]`
(identity ranks) is accepted, by the first half of the theorem. -/
theorem condorcet_total_order_accepts_witness :
    assert_condorcet_ballot
      ([[0, 1, 1], [0, 0, 1], [0, 0, 0]] : List (List (ZMod 7))) = true := by
  refine condorcet_total_order_accepts_and_cycle_fails.1 7
    ([[0, 1, 1], [0, 0, 1], [0, 0, 0]] : List (List (ZMod 7)))
    (fun i => i) (by decide) (by decide) (fun i _ j _ h => h) ?_
  intro i hi j hj
  have hi3 : i < 3 := by simpa using hi
  have hj3 : j < 3 := by simpa using hj
  interval_cases i <;> interval_cases j <;> decide

lemma get_n_occurences_eq_count (wires : List (ZMod q)) (w : ZMod q) :
    get_n_occurences wires w = ((wires.count w : ℕ) : ZMod q) := by
  rw [get_n_occurences]
  suffices h : ∀ (acc : ZMod q) (l : List (ZMod q)),
      List.foldl (fun acc x => acc + eqW x w) acc l =
        acc + ((l.count w : ℕ) : ZMod q) by
    simpa using h 0 wires
  intro acc l
  induction l generalizing acc with
  | nil => simp
  | cons x rest ih =>
    rw [List.foldl_cons, ih, List.count_cons]
    have hx : eqW x w = ((if x == w then 1 else 0 : ℕ) : ZMod q) := by
      by_cases hxw : x = w <;> simp [eqW, hxw]
    rw [hx]
    push_cast
    ring

/-- Claim C9: when `ordered_points` is no longer than the ballot,
`assert_pointlist_borda_ballot` succeeds iff the number of ballot entries
equal to `gen(0)` — computed by the occurrence gate as the sum of
per-element equality indicators — equals
`gen(len(ballot) - len(ordered_points))`, and each value of
`ordered_points` occurs in the ballot exactly once. -/
theorem pointlist_borda_ballot_iff (ballot ordered_points : List (ZMod q))
    (hle : ordered_points.length ≤ ballot.length) :
    assert_pointlist_borda_ballot ballot ordered_points = true ↔
      (((ballot.count 0 : ℕ) : ZMod q) =
          ((ballot.length - ordered_points.length : ℕ) : ZMod q) ∧
        ∀ p ∈ ordered_points, ((ballot.count p : ℕ) : ZMod q) = 1) := by
  have hz : (((ballot.length : ℤ) - (ordered_points.length : ℤ) : ℤ) :
      ZMod q) = ((ballot.length - ordered_points.length : ℕ) : ZMod q) := by
    rw [Nat.cast_sub hle]
    push_cast
    ring
  simp only [assert_pointlist_borda_ballot, Bool.and_eq_true, assert_equal,
    decide_eq_true_eq, List.cons.injEq, and_true, List.all_eq_true,
    get_n_occurences_eq_count]
  rw [hz]
  constructor <;> rintro ⟨h1, h2⟩ <;> exact ⟨h1.symm, h2⟩

/-- Claim C9 witness: ballot `[3, 2, 1, 0]` with points `[3, 2, 1]` over
`ZMod 11` satisfies both counting conditions and is accepted. -/
theorem pointlist_borda_ballot_iff_witness :
    assert_pointlist_borda_ballot ([3, 2, 1, 0] : List (ZMod 11))
      ([3, 2, 1] : List (ZMod 11)) = true :=
  (pointlist_borda_ballot_iff ([3, 2, 1, 0] : List (ZMod 11))
    ([3, 2, 1] : List (ZMod 11)) (by decide)).mpr (by decide)

lemma list_range_map_sum (n : ℕ) (F : ℕ → ZMod q) :
    ((List.range n).map F).sum = Finset.sum (Finset.range n) F := by
  induction n with
  | zero => simp
  | succ n ih =>
    rw [List.range_succ, List.map_append, List.sum_append,
      Finset.sum_range_succ, ih]
    simp

lemma list_range_filter_map_sum (n i : ℕ) (F : ℕ → ZMod q) :
    (((List.range n).filter fun j => j != i).map F).sum =
      Finset.sum (Finset.range n) fun j => if j = i then 0 else F j := by
  induction n with
  | zero => simp
  | succ n ih =>
    rw [List.range_succ, List.filter_append, List.map_append,
      List.sum_append, Finset.sum_range_succ, ih]
    by_cases h : n = i
    · simp [h]
    · have hb : (n != i) = true := by simpa using h
      simp [h, hb, List.filter_cons]

lemma natCast_val_self [NeZero q] (a : ZMod q) : ((a.val : ℕ) : ZMod q) = a :=
  (ZMod.natCast_val a).trans (ZMod.cast_id q a)

lemma val_sub_one {a : ZMod q} (hq0 : 0 < q) (h1 : 1 ≤ a.val) :
    (a - 1).val = a.val - 1 := by
  haveI : NeZero q := ⟨by omega⟩
  have h2 : a - 1 = (((a.val - 1 : ℕ)) : ZMod q) := by
    rw [Nat.cast_sub h1, natCast_val_self, Nat.cast_one]
  have h3 : a.val - 1 < q := by
    have := ZMod.val_lt a
    omega
  rw [h2, ZMod.val_cast_of_lt h3]

lemma val_pos_of_fit {a : ZMod q} (bits : ℕ) (hq : 2 ^ bits < q)
    (ha1 : (a - 1).val < 2 ^ bits) : 1 ≤ a.val := by
  haveI : NeZero q := ⟨by omega⟩
  by_contra h
  push_neg at h
  have ha0 : a = 0 := (ZMod.val_eq_zero a).mp (by omega)
  have hneg : a - 1 = (((q - 1 : ℕ)) : ZMod q) := by
    rw [ha0, Nat.cast_sub (by omega : 1 ≤ q), ZMod.natCast_self, Nat.cast_one]
  rw [hneg, ZMod.val_cast_of_lt (by omega)] at ha1
  omega

lemma gtW_pair (bits : ℕ) (hq : 2 ^ bits < q) {a b : ZMod q}
    (ha1 : (a - 1).val < 2 ^ bits) (hb1 : (b - 1).val < 2 ^ bits)
    (hgap : a.val + 2 ≤ b.val ∨ b.val + 2 ≤ a.val) :
    gtW (a - 1) b bits + gtW (b - 1) a bits = 1 ∧ eqW a b = 0 := by
  have hq0 : 0 < q := by
    have : 1 ≤ 2 ^ bits := Nat.one_le_two_pow
    omega
  have hA : 1 ≤ a.val := val_pos_of_fit bits hq ha1
  have hB : 1 ≤ b.val := val_pos_of_fit bits hq hb1
  have hA' : (a - 1).val = a.val - 1 := val_sub_one hq0 hA
  have hB' : (b - 1).val = b.val - 1 := val_sub_one hq0 hB
  have hab : a ≠ b := by
    intro h
    rw [h] at hgap
    omega
  refine ⟨?_, ?_⟩
  · rw [gtW, gtW, hA', hB']
    rcases hgap with h | h
    · rw [if_neg (by omega), if_pos (by omega)]
      rw [zero_add]
    · rw [if_pos (by omega), if_neg (by omega)]
      rw [add_zero]
  · rw [eqW, if_neg hab]

lemma double_count (n : ℕ) (f : ℕ → ℕ → ZMod q)
    (hpair : ∀ i, i < n → ∀ j, j < n → i ≠ j → f i j + f j i = 1) :
    Finset.sum (Finset.range n) (fun i => 2 * Finset.sum (Finset.range n)
      (fun j => if j = i then 0 else f i j)) =
      ((n * (n - 1) : ℕ) : ZMod q) := by
  have htwo : Finset.sum (Finset.range n) (fun i =>
      2 * Finset.sum (Finset.range n) (fun j => if j = i then 0 else f i j)) =
      Finset.sum (Finset.range n) (fun i => Finset.sum (Finset.range n)
        (fun j => if j = i then 0 else f i j)) +
      Finset.sum (Finset.range n) (fun i => Finset.sum (Finset.range n)
        (fun j => if j = i then 0 else f i j)) := by
    rw [← Finset.sum_add_distrib]
    refine Finset.sum_congr rfl fun i _ => ?_
    ring
  rw [htwo]
  have hswap : Finset.sum (Finset.range n) (fun i => Finset.sum
      (Finset.range n) (fun j => if j = i then 0 else f i j)) =
      Finset.sum (Finset.range n) (fun i => Finset.sum (Finset.range n)
        (fun j => if i = j then 0 else f j i)) := by
    rw [Finset.sum_comm]
  nth_rewrite 2 [hswap]
  rw [← Finset.sum_add_distrib]
  have hinner : ∀ i ∈ Finset.range n,
      (Finset.sum (Finset.range n) (fun j => if j = i then 0 else f i j) +
        Finset.sum (Finset.range n) (fun j => if i = j then 0 else f j i)) =
      Finset.sum (Finset.range n) (fun j => if j = i then (0 : ZMod q)
        else 1) := by
    intro i hi
    rw [← Finset.sum_add_distrib]
    refine Finset.sum_congr rfl fun j hj => ?_
    by_cases h : j = i
    · simp [h]
    · rw [if_neg h, if_neg (fun hh => h hh.symm), if_neg h]
      exact hpair i (Finset.mem_range.mp hi) j (Finset.mem_range.mp hj)
        (fun hh => h hh.symm)
  rw [Finset.sum_congr rfl hinner]
  have hrow : ∀ i ∈ Finset.range n,
      Finset.sum (Finset.range n) (fun j => if j = i then (0 : ZMod q)
        else 1) = (n : ZMod q) - 1 := by
    intro i hi
    have hsplit : (fun j => if j = i then (0 : ZMod q) else 1) =
        fun j => 1 - (if j = i then 1 else 0) := by
      funext j
      by_cases h : j = i <;> simp [h]
    rw [hsplit, Finset.sum_sub_distrib, Finset.sum_const, Finset.card_range,
      Finset.sum_ite_eq' (Finset.range n) i (fun _ => (1 : ZMod q)),
      if_pos hi, nsmul_eq_mul, mul_one]
  rw [Finset.sum_congr rfl hrow, Finset.sum_const, Finset.card_range,
    nsmul_eq_mul]
  rcases Nat.eq_zero_or_pos n with rfl | hn
  · simp
  · rw [Nat.cast_mul, Nat.cast_sub (by omega : 1 ≤ n), Nat.cast_one]

/-- Claim C5 (amended): for a ranking whose values are pairwise at distance
at least 2 (each value and its predecessor fitting in `bits` bits, with
`2^bits` below the group order), the tournament-style Borda scores sum to
`n*(n-1)`.  Distinctness alone does not suffice, because the gate counts a
win for `i` over `j` only when `ranking[i] - 1 > ranking[j]`. -/
theorem borda_tournament_scores_sum (ranking : List (ZMod q)) (bits : ℕ)
    (hq : 2 ^ bits < q)
    (hfit : ∀ x ∈ ranking, x.val < 2 ^ bits ∧ (x - 1).val < 2 ^ bits)
    (hgap : ranking.Pairwise fun a b =>
      a.val + 2 ≤ b.val ∨ b.val + 2 ≤ a.val) :
    (compute_borda_tournament_style_ballot ranking bits).sum =
      ((ranking.length * (ranking.length - 1) : ℕ) : ZMod q) := by
  have hmem : ∀ j, j < ranking.length → ranking.getD j 0 ∈ ranking := by
    intro j hj
    rw [List.getD_eq_getElem ranking 0 hj]
    exact List.getElem_mem hj
  have hgap' : ∀ i j, i < ranking.length → j < ranking.length → i ≠ j →
      (ranking.getD i 0).val + 2 ≤ (ranking.getD j 0).val ∨
        (ranking.getD j 0).val + 2 ≤ (ranking.getD i 0).val := by
    intro i j hi hj hij
    rw [List.getD_eq_getElem ranking 0 hi, List.getD_eq_getElem ranking 0 hj]
    rcases Nat.lt_or_ge i j with h | h
    · have hp := List.pairwise_iff_get.mp hgap ⟨i, hi⟩ ⟨j, hj⟩
        (Fin.mk_lt_mk.mpr h)
      simpa [List.get_eq_getElem] using hp
    · have hij' : j < i := by omega
      have hp := List.pairwise_iff_get.mp hgap ⟨j, hj⟩ ⟨i, hi⟩
        (Fin.mk_lt_mk.mpr hij')
      simp only [List.get_eq_getElem] at hp
      exact hp.symm
  have key : ∀ i, i < ranking.length → ∀ j, j < ranking.length → i ≠ j →
      gtW (ranking.getD i 0 - 1) (ranking.getD j 0) bits +
        gtW (ranking.getD j 0 - 1) (ranking.getD i 0) bits = 1 ∧
        eqW (ranking.getD i 0) (ranking.getD j 0) = 0 := by
    intro i hi j hj hij
    exact gtW_pair bits hq (hfit _ (hmem i hi)).2 (hfit _ (hmem j hj)).2
      (hgap' i j hi hj hij)
  simp only [compute_borda_tournament_style_ballot]
  rw [list_range_map_sum]
  have hterm : ∀ i ∈ Finset.range ranking.length,
      (2 * (((List.range ranking.length).filter fun j => j != i).map fun j =>
          gtW (ranking.getD i 0 - 1) (ranking.getD j 0) bits).sum +
        (((List.range ranking.length).filter fun j => j != i).map fun j =>
          eqW (ranking.getD i 0) (ranking.getD j 0)).sum) =
      2 * Finset.sum (Finset.range ranking.length)
        (fun j => if j = i then 0 else
          gtW (ranking.getD i 0 - 1) (ranking.getD j 0) bits) := by
    intro i hi
    rw [list_range_filter_map_sum, list_range_filter_map_sum]
    have hzero : Finset.sum (Finset.range ranking.length)
        (fun j => if j = i then (0 : ZMod q)
          else eqW (ranking.getD i 0) (ranking.getD j 0)) = 0 := by
      apply Finset.sum_eq_zero
      intro j hj
      by_cases h : j = i
      · rw [if_pos h]
      · rw [if_neg h]
        exact (key i (Finset.mem_range.mp hi) j (Finset.mem_range.mp hj)
          (fun hh => h hh.symm)).2
    rw [hzero, add_zero]
  rw [Finset.sum_congr rfl hterm]
  exact double_count ranking.length _
    (fun i hi j hj hij => (key i hi j hj hij).1)

/-- Claim C5 counterexample: the ranking `[5, 6]` over `ZMod 97` has
pairwise distinct values, each value and each value minus one fitting in 3
bits, yet the two scores sum to 0, not `n*(n-1) = 2`: with the strict
comparison gate, `gt(5 - 1, 6, 3)` and `gt(6 - 1, 5, 3)` are both 0, so
adjacent values give neither candidate a win. -/
theorem borda_tournament_adjacent_values_fail :
    (∀ x ∈ ([5, 6] : List (ZMod 97)),
        x.val < 2 ^ 3 ∧ (x - 1).val < 2 ^ 3) ∧
      (5 : ZMod 97) ≠ 6 ∧
      (compute_borda_tournament_style_ballot ([5, 6] : List (ZMod 97)) 3).sum
        ≠ ((([5, 6] : List (ZMod 97)).length *
          (([5, 6] : List (ZMod 97)).length - 1) : ℕ) : ZMod 97) := by
  decide

/-- Claim C5 witness: the ranking `[5, 8]` over `ZMod 97` (gap 3, values
fitting in 4 bits) has scores summing to `2 * 1 = n*(n-1)`. -/
theorem borda_tournament_scores_sum_witness :
    (compute_borda_tournament_style_ballot ([5, 8] : List (ZMod 97)) 4).sum =
      ((([5, 8] : List (ZMod 97)).length *
        (([5, 8] : List (ZMod 97)).length - 1) : ℕ) : ZMod 97) :=
  borda_tournament_scores_sum ([5, 8] : List (ZMod 97)) 4 (by norm_num)
    (by decide) (by decide)

lemma expNat_eq_nsmul (p : M) (n : ℕ) : expNat p n = n • p := by
  induction n using Nat.strong_induction_on generalizing p with
  | _ n ih =>
    rw [expNat]
    by_cases h0 : n = 0
    · simp [h0]
    · rw [dif_neg h0]
      have ihh := ih (n / 2)
        (Nat.div_lt_self (Nat.pos_of_ne_zero h0) Nat.one_lt_two) (p + p)
      by_cases hpar : n % 2 = 1
      · rw [if_pos hpar, ihh, smul_add]
        have hn : n = 1 + (n / 2 + n / 2) := by omega
        conv_rhs => rw [hn]
        rw [add_nsmul, one_nsmul, add_nsmul]
      · rw [if_neg hpar, ihh, smul_add]
        have hn : n = n / 2 + n / 2 := by omega
        conv_rhs => rw [hn]
        rw [add_nsmul]

lemma bitExp_fold (hq2 : 1 < q) (p : M) :
    ∀ (m nval : ℕ), nval < 2 ^ m → ∀ acc : M,
      List.foldl (fun acc b => acc + acc + expNat p (ZMod.val b)) acc
        ((natBitsMSB m nval).map fun b => ((b : ℕ) : ZMod q)) =
        (2 ^ m) • acc + nval • p := by
  haveI : NeZero q := ⟨by omega⟩
  intro m
  induction m with
  | zero =>
    intro nval h acc
    interval_cases nval
    simp [natBitsMSB]
  | succ m ih =>
    intro nval h acc
    have h2m : 0 < 2 ^ m := Nat.pos_pow_of_pos m (by norm_num)
    have hd : nval / 2 ^ m < 2 := by
      have hlt : nval < 2 * 2 ^ m := by
        rw [pow_succ] at h
        omega
      exact (Nat.div_lt_iff_lt_mul h2m).mpr hlt
    rw [natBitsMSB, List.map_cons, List.foldl_cons]
    have hval : ((((nval / 2 ^ m) : ℕ) : ZMod q)).val = nval / 2 ^ m :=
      ZMod.val_cast_of_lt (by omega)
    rw [hval, ih (nval % 2 ^ m) (Nat.mod_lt _ h2m)
      (acc + acc + expNat p (nval / 2 ^ m)), expNat_eq_nsmul, smul_add,
      smul_add]
    have hacc : (2 ^ m) • acc + (2 ^ m) • acc = (2 ^ (m + 1)) • acc := by
      rw [← add_nsmul]
      congr 1
      rw [pow_succ]
      omega
    have hp2 : (2 ^ m) • ((nval / 2 ^ m) • p) + (nval % 2 ^ m) • p =
        nval • p := by
      rw [← mul_nsmul, ← add_nsmul]
      congr 1
      exact Nat.div_add_mod' nval (2 ^ m)
    rw [hacc, add_assoc, hp2]

/-- Claim C3: when `r_bits` is the canonical MSB-first bit decomposition of
`r` at the group's native bit capacity `nbits`, and `n_max_bits_x` equals
that capacity, the bit-randomness ElGamal variant returns the identical
ciphertext pair as the scalar variant (provided `x` and `r` fit in `nbits`
bits, the collaborators' range precondition). -/
theorem elgamal_bit_randomness_equiv (nbits : ℕ) (A B : ZMod q) (g pk : M)
    (x r : ZMod q) (hq2 : 1 < q) (hx : x.val < 2 ^ nbits)
    (hr : r.val < 2 ^ nbits) :
    exponential_elgamal_over_montgomery_curve_bit_randomness nbits A B g pk
        x (split nbits r none) (some nbits) =
      exponential_elgamal_over_montgomery_curve A B g pk x r := by
  have hbit : ∀ (p : M) (s : ZMod q), s.val < 2 ^ nbits →
      exponent_homogeneous_point_bit_exponent A B p (split nbits s none) =
        expNat p s.val := by
    intro p s hs
    rw [exponent_homogeneous_point_bit_exponent, split]
    simp only [Option.getD_none]
    rw [bitExp_fold hq2 p nbits s.val hs 0, smul_zero, zero_add,
      expNat_eq_nsmul]
  have hxs : split nbits x (some nbits) = split nbits x none := rfl
  simp only [exponential_elgamal_over_montgomery_curve_bit_randomness,
    exponential_elgamal_over_montgomery_curve, hxs, hbit g x hx,
    hbit pk r hr, hbit g r hr, exponent_homogeneous_point,
    add_homogeneous_points]

/-- Claim C3 witness: over the point monoid `ℤ` with `q = 13`, capacity 4,
`x = 3`, `r = 5`, the two gates agree. -/
theorem elgamal_bit_randomness_equiv_witness :
    exponential_elgamal_over_montgomery_curve_bit_randomness 4 (0 : ZMod 13)
        0 (2 : ℤ) 7 (3 : ZMod 13) (split 4 (5 : ZMod 13) none) (some 4) =
      exponential_elgamal_over_montgomery_curve (0 : ZMod 13) 0 (2 : ℤ) 7
        (3 : ZMod 13) 5 :=
  elgamal_bit_randomness_equiv 4 0 0 2 7 3 5 (by norm_num) (by decide)
    (by decide)

/-- Claim C8: the scalar ElGamal gate returns the pair `(g^r, g^x + pk^r)`
— in the additive notation of the point monoid, `(r • g, x • g + r • pk)` —
built from three scalar-curve exponentiations and one point addition; it is
a pure derivation asserting no constraints. -/
theorem elgamal_scalar_ciphertext (A B : ZMod q) (g pk : M) (x r : ZMod q) :
    exponential_elgamal_over_montgomery_curve A B g pk x r =
      (r.val • g, x.val • g + r.val • pk) := by
  simp only [exponential_elgamal_over_montgomery_curve,
    exponent_homogeneous_point, add_homogeneous_points, expNat_eq_nsmul]
